import Mathlib

/-!
Verification of `winds` (`src/winds/downsize_images.py`), a script that
recursively finds image files under a directory and downsizes each one so
that its maximum dimension equals a target value.

The embedding models:
* the Scaler (size computation inside `resize_image`), with Python's
  float division modelled as exact rational division and Python's
  `int(...)` truncation as `Nat.floor` (the operands are nonnegative);
* `resize_image` as a function from the file's content to an
  `Except`-style result together with the ordered list of side-effect
  events it performs (`open`, metadata read, resample, save);
* the directory walk and filter of `resize_images`, the sequential
  fail-fast processing loop, and the progress-bar flag;
* `main`: path resolution, the optional `shutil.copytree` backup, and the
  invocation of `resize_images`, as an event trace.
-/

namespace Winds

/-! ### Scaler: the size computation of `resize_image`

Source (`downsize_images.py`, lines 21-28):
```
width, height = image.size
max_dim = max(width, height)
scale = float(new_max_dim / max_dim)
image = image.resize((int(width * scale), int(height * scale)), ...)
```
Python's true division is modelled as exact division in `ℚ`; `int(x)`
truncates toward zero, which for the nonnegative products here is the
floor. -/

/-- The assignment `scale = new_max_dim / max_dim` from `resize_image`. -/
def scale (width height new_max_dim : ℕ) : ℚ :=
  (new_max_dim : ℚ) / ((max width height : ℕ) : ℚ)

/-- The expression `int(width * scale)` from `resize_image`. -/
def newWidth (width height new_max_dim : ℕ) : ℕ :=
  Nat.floor ((width : ℚ) * scale width height new_max_dim)

/-- The expression `int(height * scale)` from `resize_image`. -/
def newHeight (width height new_max_dim : ℕ) : ℕ :=
  Nat.floor ((height : ℚ) * scale width height new_max_dim)

/-! ### Paths and `pathlib` suffixes

`resize_images` filters `path.rglob("*")` by `file.suffix in exts`.
`Path.suffix` is the extension of the final path component, dot included:
the slice from the last `.` of the final name, provided that dot is
neither the first nor the last character of the name. -/

/-- Characters after the last occurrence of `sep` (the whole list when
`sep` does not occur). -/
def afterLast (sep : Char) (l : List Char) : List Char :=
  l.foldl (fun acc c => if c = sep then [] else acc ++ [c]) []

/-- Index of the last occurrence of `c` in `l`, if any. -/
def lastIdxOf (c : Char) (l : List Char) : Option ℕ :=
  ((List.range l.length).filter (fun i => l.get? i = some c)).getLast?

/-- Model of `pathlib.PurePath.suffix`: the extension of the final component,
including the leading dot; empty when the final component has no dot, or
its only dot is the leading or trailing character. -/
def suffix (p : String) : String :=
  let name := afterLast '/' p.toList
  match lastIdxOf '.' name with
  | some i => if 0 < i ∧ i + 1 < name.length then String.mk (name.drop i) else ""
  | none => ""

/-! ### Errors, events, and file contents -/

/-- Errors the script can propagate (none are caught anywhere). -/
inductive Err where
  /-- Raised when `PIL.Image.open` fails: unreadable or corrupt file, or a directory. -/
  | decodeError
  /-- Raised when `image.info` lacks the exif key: no embedded metadata block. -/
  | missingMetadata
  /-- Raised when `shutil.copytree` fails (destination exists, permissions, space). -/
  | copyFailed
deriving DecidableEq, Repr

/-- Side-effect events, in program order. -/
inductive Ev where
  /-- Event: `Image.open(image_file)` succeeded. -/
  | openFile (p : String)
  /-- Event: the exif lookup in `image.info` succeeded. -/
  | readExif (p : String)
  /-- Event: `image.resize` with the LANCZOS filter ran. -/
  | resample (p : String)
  /-- Event: `image.save(image_file, quality=100, exif=exif)` ran, the only write. -/
  | save (p : String)
  /-- Event: `shutil.copytree(src, dst)` completed. -/
  | copyTree (src dst : String)
deriving DecidableEq, Repr

/-- Abstraction of an image file's content: its pixel dimensions, whether
it carries an embedded exif metadata block, and whether `Image.open` can
decode it at all. -/
structure ImgFile where
  width : ℕ
  height : ℕ
  hasExif : Bool
  decodable : Bool
deriving DecidableEq, Repr

/-- One entry found under the root: its path, whether it is a regular
file (as opposed to a directory — `rglob("*")` yields both), and its
content when it is a file. -/
structure Entry where
  path : String
  isFile : Bool
  img : ImgFile
deriving DecidableEq, Repr

/-! ### `resize_image` -/

/-- Model of `resize_image(image_file, new_max_dim)`: open the file, read the
exif block from `image.info` (a `KeyError` if absent), compute the
scaled dimensions, resample, and only then save back to the same path.
Returns the resulting content (or the propagated error) together with
the ordered list of performed side effects. -/
def resize_image (p : String) (f : ImgFile) (new_max_dim : ℕ) :
    Except Err ImgFile × List Ev :=
  if f.decodable = false then
    (Except.error Err.decodeError, [])
  else if f.hasExif = false then
    (Except.error Err.missingMetadata, [Ev.openFile p])
  else
    (Except.ok
      { width := newWidth f.width f.height new_max_dim
        height := newHeight f.width f.height new_max_dim
        hasExif := true
        decodable := true },
     [Ev.openFile p, Ev.readExif p, Ev.resample p, Ev.save p])

/-! ### `resize_images`: walk, filter, sequential loop -/

/-- The suffix allow-list `exts = [".png", ".jpg", ".jpeg"]`. -/
def exts : List String := [".png", ".jpg", ".jpeg"]

/-- The list comprehension
`[file for file in path.rglob("*") if file.suffix in exts]`, over the
materialized enumeration `tree` of all entries under the root. -/
def imageFiles (tree : List Entry) : List Entry :=
  tree.filter (fun f => decide (suffix f.path ∈ exts))

/-- Overwrite the content stored at path `p` (what `image.save` does to
the filesystem). -/
def writeImg (fs : List Entry) (p : String) (g : ImgFile) : List Entry :=
  fs.map (fun e => if e.path = p then { e with img := g } else e)

/-- One iteration of the loop body `resize_image(image_file, ...)`,
acting on the current filesystem: look the path up (a vanished path or a
directory makes `Image.open` fail), run `resize_image`, and write the
result back on success. -/
def stepFull (m : ℕ) (fs : List Entry) (p : String) :
    Except Err (List Entry) × List Ev :=
  match fs.find? (fun e => e.path == p) with
  | none => (Except.error Err.decodeError, [])
  | some e =>
    if e.isFile = false then (Except.error Err.decodeError, [])
    else
      match resize_image p e.img m with
      | (Except.error er, evs) => (Except.error er, evs)
      | (Except.ok g, evs) => (Except.ok (writeImg fs p g), evs)

/-- Outcome of the sequential loop: final filesystem, first error (if
any), the paths actually passed to `resize_image` in order, and the
concatenated side-effect trace. -/
structure LoopResult where
  fs : List Entry
  err : Option Err
  attempted : List String
  events : List Ev
deriving DecidableEq, Repr

/-- The loop `for image_file in pbar: resize_image(image_file, ...)` — sequential
and fail-fast: the first uncaught exception aborts the loop, leaving all
earlier writes in place. -/
def processList (m : ℕ) : List Entry → List String → LoopResult
  | fs, [] => ⟨fs, none, [], []⟩
  | fs, p :: rest =>
    match stepFull m fs p with
    | (Except.ok fs', evs) =>
      let r := processList m fs' rest
      ⟨r.fs, r.err, p :: r.attempted, evs ++ r.events⟩
    | (Except.error er, evs) => ⟨fs, some er, [p], evs⟩

/-- Result of `resize_images`: the loop outcome plus the progress-bar
configuration (`total=len(image_files)`, `disable=disable_pbar`). -/
structure RunResult where
  fs : List Entry
  err : Option Err
  attempted : List String
  events : List Ev
  progressTotal : ℕ
  progressShown : Bool
deriving DecidableEq, Repr

/-- Model of `resize_images(path, new_max_dim, disable_pbar)`: materialize the
filtered list, build the progress bar over it, then resize each file in
order. -/
def resize_images (tree : List Entry) (new_max_dim : ℕ)
    (disable_pbar : Bool) : RunResult :=
  let image_files := imageFiles tree
  let r := processList new_max_dim tree (image_files.map (fun e => e.path))
  ⟨r.fs, r.err, r.attempted, r.events, image_files.length, !disable_pbar⟩

/-! ### `main` -/

/-- A resolved absolute path, split as `pathlib` exposes it: `parent`
and final component `name`. -/
structure AbsPath where
  parent : String
  name : String
deriving DecidableEq, Repr

/-- Render an `AbsPath` back to a path string. -/
def render (p : AbsPath) : String := p.parent ++ "/" ++ p.name

/-- Outcome of a whole run of `main`. -/
structure MainResult where
  events : List Ev
  err : Option Err
  fs : List Entry
deriving DecidableEq, Repr

/-- Model of `main()` after argument parsing: resolve the directory; unless
`--in-place`, `shutil.copytree` the tree to the sibling
`{name}_original` (aborting the run if that raises — `copytree_ok`
models whether it succeeds); then call `resize_images`. -/
def main (path : AbsPath) (tree : List Entry) (copytree_ok : Bool)
    (max_dim : ℕ) (in_place quiet : Bool) : MainResult :=
  if in_place = false then
    let new_dir : AbsPath := ⟨path.parent, path.name ++ "_original"⟩
    if copytree_ok then
      let r := resize_images tree max_dim quiet
      ⟨Ev.copyTree (render path) (render new_dir) :: r.events, r.err, r.fs⟩
    else
      ⟨[], some Err.copyFailed, tree⟩
  else
    let r := resize_images tree max_dim quiet
    ⟨r.events, r.err, r.fs⟩

/-- Run the loop over a list of paths on which every step succeeds:
`some` of the resulting filesystem, `none` as soon as any step fails.
Used to characterize the fail-fast behavior of `processList`. -/
def okRun (m : ℕ) : List Entry → List String → Option (List Entry)
  | fs, [] => some fs
  | fs, p :: rest =>
    match stepFull m fs p with
    | (Except.ok fs', _) => okRun m fs' rest
    | (Except.error _, _) => none

/-! ## Theorems -/

/-- The floored product `⌊a * (m / d)⌋` is the natural division `a * m / d`. -/
theorem floor_mul_scale (a m d : ℕ) :
    Nat.floor ((a : ℚ) * ((m : ℚ) / (d : ℚ))) = a * m / d := by
  rcases Nat.eq_zero_or_pos d with hd | hd
  · subst hd
    simp
  · have hdq : ((d : ℚ)) ≠ 0 := by positivity
    have h1 : (a : ℚ) * ((m : ℚ) / (d : ℚ)) = ((a * m : ℕ) : ℚ) / ((d : ℕ) : ℚ) := by
      push_cast
      ring
    rw [h1, Nat.floor_div_nat, Nat.floor_natCast]

/-- Computed characterization: `newWidth` is the natural division
`width * m / max width height`. -/
theorem newWidth_eq_div (w h m : ℕ) : newWidth w h m = w * m / max w h :=
  floor_mul_scale w m (max w h)

/-- Computed characterization: `newHeight` is the natural division
`height * m / max width height`. -/
theorem newHeight_eq_div (w h m : ℕ) : newHeight w h m = h * m / max w h :=
  floor_mul_scale h m (max w h)

example : newWidth 800 600 400 = 400 := by rw [newWidth_eq_div]; decide
example : newHeight 800 600 400 = 300 := by rw [newHeight_eq_div]; decide
example : suffix "photos/cat.jpg" = ".jpg" := by decide
example : suffix "photos/anim.gif" = ".gif" := by decide
example : suffix "photos/CAT.JPG" = ".JPG" := by decide
example : suffix "photos/readme" = "" := by decide

/-! ### Claims about the Scaler -/

/-- Claim C1: for every positive integer width `w`, height `h`, and target
maximum dimension `m`, the Scaler computes `scale = m / max(w, h)` and
produces `new_w = ⌊w * scale⌋` and `new_h = ⌊h * scale⌋` (equivalently,
the natural divisions `w * m / max w h` and `h * m / max w h`). -/
theorem C1_scaler_formula (w h m : ℕ) (hw : 0 < w) (hh : 0 < h) (hm : 0 < m) :
    scale w h m = (m : ℚ) / ((max w h : ℕ) : ℚ) ∧
    (newWidth w h m : ℤ) = ⌊(w : ℚ) * scale w h m⌋ ∧
    (newHeight w h m : ℤ) = ⌊(h : ℚ) * scale w h m⌋ ∧
    newWidth w h m = w * m / max w h ∧
    newHeight w h m = h * m / max w h := by
  refine ⟨rfl, ?_, ?_, newWidth_eq_div w h m, newHeight_eq_div w h m⟩
  · exact Int.natCast_floor_eq_floor (by unfold scale; positivity)
  · exact Int.natCast_floor_eq_floor (by unfold scale; positivity)

/-- Witness for C1 at the spec's own example `800 × 600`, `m = 400`. -/
theorem C1_scaler_formula_witness :
    scale 800 600 400 = ((400 : ℕ) : ℚ) / ((max 800 600 : ℕ) : ℚ) ∧
    (newWidth 800 600 400 : ℤ) = ⌊((800 : ℕ) : ℚ) * scale 800 600 400⌋ ∧
    (newHeight 800 600 400 : ℤ) = ⌊((600 : ℕ) : ℚ) * scale 800 600 400⌋ ∧
    newWidth 800 600 400 = 800 * 400 / max 800 600 ∧
    newHeight 800 600 400 = 600 * 400 / max 800 600 :=
  C1_scaler_formula 800 600 400 (by decide) (by decide) (by decide)

/-- Claim C5: when the target equals the current maximum dimension, the
scale is `1`, the output dimensions equal the input dimensions, and the
file is still re-encoded and re-saved (`resize_image` succeeds and emits
its save). -/
theorem C5_scale_one_identity (w h : ℕ) (p : String) (f : ImgFile)
    (hw : 0 < w) (hh : 0 < h) (hfw : f.width = w) (hfh : f.height = h)
    (hex : f.hasExif = true) (hdec : f.decodable = true) :
    scale w h (max w h) = 1 ∧
    newWidth w h (max w h) = w ∧
    newHeight w h (max w h) = h ∧
    (resize_image p f (max w h)).1 =
      Except.ok { width := w, height := h, hasExif := true, decodable := true } ∧
    Ev.save p ∈ (resize_image p f (max w h)).2 := by
  have hd : 0 < max w h := lt_of_lt_of_le hw (le_max_left w h)
  have hW : newWidth w h (max w h) = w := by
    rw [newWidth_eq_div, Nat.mul_div_cancel w hd]
  have hH : newHeight w h (max w h) = h := by
    rw [newHeight_eq_div, Nat.mul_div_cancel h hd]
  have hs : scale w h (max w h) = 1 := by
    unfold scale
    rw [div_self]
    exact_mod_cast hd.ne'
  refine ⟨hs, hW, hH, ?_, ?_⟩
  · simp [resize_image, hdec, hex, hfw, hfh, hW, hH]
  · simp [resize_image, hdec, hex]

/-- Witness for C5: a `100 × 60` image with exif, target `max 100 60 = 100`. -/
theorem C5_scale_one_identity_witness :
    scale 100 60 (max 100 60) = 1 ∧
    newWidth 100 60 (max 100 60) = 100 ∧
    newHeight 100 60 (max 100 60) = 60 ∧
    (resize_image "root/cat.jpg" ⟨100, 60, true, true⟩ (max 100 60)).1 =
      Except.ok { width := 100, height := 60, hasExif := true, decodable := true } ∧
    Ev.save "root/cat.jpg" ∈
      (resize_image "root/cat.jpg" ⟨100, 60, true, true⟩ (max 100 60)).2 :=
  C5_scale_one_identity 100 60 "root/cat.jpg" ⟨100, 60, true, true⟩
    (by decide) (by decide) rfl rfl rfl rfl

/-- Claim C6: when `max(w, h) < m` the Scaler still applies the uniform
scale `m / max(w, h) > 1` and upscales: both dimensions grow (weakly),
the new maximum dimension is exactly `m`, and `resize_image` still
resamples and saves — there is no guard that skips an image already
within the target. -/
theorem C6_upscale_no_guard (w h m : ℕ) (p : String) (f : ImgFile)
    (hw : 0 < w) (hh : 0 < h) (hlt : max w h < m)
    (hfw : f.width = w) (hfh : f.height = h)
    (hex : f.hasExif = true) (hdec : f.decodable = true) :
    1 < scale w h m ∧
    w ≤ newWidth w h m ∧
    h ≤ newHeight w h m ∧
    max (newWidth w h m) (newHeight w h m) = m ∧
    Ev.save p ∈ (resize_image p f m).2 := by
  have hd : 0 < max w h := lt_of_lt_of_le hw (le_max_left w h)
  have hdq : (0 : ℚ) < ((max w h : ℕ) : ℚ) := by exact_mod_cast hd
  refine ⟨?_, ?_, ?_, ?_, ?_⟩
  · unfold scale
    rw [one_lt_div hdq]
    exact_mod_cast hlt
  · rw [newWidth_eq_div]
    exact (Nat.le_div_iff_mul_le hd).mpr (Nat.mul_le_mul_left w hlt.le)
  · rw [newHeight_eq_div]
    exact (Nat.le_div_iff_mul_le hd).mpr (Nat.mul_le_mul_left h hlt.le)
  · rw [newWidth_eq_div, newHeight_eq_div]
    rcases le_total h w with hhw | hwh
    · rw [max_eq_left hhw, Nat.mul_div_cancel_left m hw]
      exact max_eq_left (Nat.div_le_of_le_mul (Nat.mul_le_mul_right m hhw))
    · rw [max_eq_right hwh, Nat.mul_div_cancel_left m hh]
      exact max_eq_right (Nat.div_le_of_le_mul (Nat.mul_le_mul_right m hwh))
  · simp [resize_image, hdec, hex]

/-- Witness for C6: a `4 × 3` image upscaled to target `10`. -/
theorem C6_upscale_no_guard_witness :
    1 < scale 4 3 10 ∧
    4 ≤ newWidth 4 3 10 ∧
    3 ≤ newHeight 4 3 10 ∧
    max (newWidth 4 3 10) (newHeight 4 3 10) = 10 ∧
    Ev.save "root/a.png" ∈ (resize_image "root/a.png" ⟨4, 3, true, true⟩ 10).2 :=
  C6_upscale_no_guard 4 3 10 "root/a.png" ⟨4, 3, true, true⟩
    (by decide) (by decide) (by decide) rfl rfl rfl rfl

/-- Arithmetic core of the aspect-ratio bound, over `ℤ`: if
`d * (QA * H - W * QB) = W * RB - H * RA` with `0 ≤ RA, RB < d` and
`0 < W, H ≤ d`, then `|QA * H - W * QB| ≤ d`. -/
theorem cross_aux (d W H QA QB RA RB : ℤ)
    (hW : 0 < W) (hH : 0 < H) (hd : 0 < d) (hWd : W ≤ d) (hHd : H ≤ d)
    (hRA : 0 ≤ RA) (hRA2 : RA < d) (hRB : 0 ≤ RB) (hRB2 : RB < d)
    (hkey : d * (QA * H - W * QB) = W * RB - H * RA) :
    |QA * H - W * QB| ≤ d := by
  rw [abs_le]
  constructor
  · have h3 : d * (-d) < d * (QA * H - W * QB) := by nlinarith
    exact (lt_of_mul_lt_mul_left h3 hd.le).le
  · have h2 : d * (QA * H - W * QB) < d * d := by nlinarith
    exact (lt_of_mul_lt_mul_left h2 hd.le).le

/-- Truncating the two scaled dimensions perturbs the cross product
`new_w * h - w * new_h` by less than one pixel of the larger input
dimension. -/
theorem cross_diff_bound (w h m : ℕ) (hw : 0 < w) (hh : 0 < h) :
    |(newWidth w h m : ℤ) * h - (w : ℤ) * (newHeight w h m)| ≤
      ((max w h : ℕ) : ℤ) := by
  rw [newWidth_eq_div, newHeight_eq_div]
  have hd : 0 < max w h := lt_of_lt_of_le hw (le_max_left w h)
  have ha := Nat.div_add_mod (w * m) (max w h)
  have hb := Nat.div_add_mod (h * m) (max w h)
  have hra := Nat.mod_lt (w * m) hd
  have hrb := Nat.mod_lt (h * m) hd
  zify at ha hb hra hrb hd ⊢
  refine cross_aux ((w : ℤ) ⊔ (h : ℤ)) w h _ _
      ((w : ℤ) * m % ((w : ℤ) ⊔ (h : ℤ))) ((h : ℤ) * m % ((w : ℤ) ⊔ (h : ℤ)))
      (by exact_mod_cast hw) (by exact_mod_cast hh) hd
      (le_max_left _ _) (le_max_right _ _)
      (Int.emod_nonneg _ hd.ne') hra (Int.emod_nonneg _ hd.ne') hrb ?_
  linear_combination (h : ℤ) * ha - (w : ℤ) * hb

/-- Claim C8: the Scaler preserves the aspect ratio within one-pixel
truncation error: the deviation of `new_w / new_h` from `w / h` is at
most `max w h` (one pixel of truncation in the numerator) divided by
`h * new_h`. -/
theorem C8_aspect_ratio (w h m : ℕ) (hw : 0 < w) (hh : 0 < h) (hm : 0 < m)
    (hnh : 0 < newHeight w h m) :
    |(newWidth w h m : ℚ) / (newHeight w h m : ℚ) - (w : ℚ) / (h : ℚ)| ≤
      ((max w h : ℕ) : ℚ) / ((h : ℚ) * (newHeight w h m : ℚ)) := by
  have hhq : (0 : ℚ) < (h : ℚ) := by exact_mod_cast hh
  have hnq : (0 : ℚ) < (newHeight w h m : ℚ) := by exact_mod_cast hnh
  rw [div_sub_div _ _ hnq.ne' hhq.ne', abs_div, abs_of_pos (mul_pos hnq hhq)]
  have hnum : |(newWidth w h m : ℚ) * h - (newHeight w h m : ℚ) * w| ≤
      ((max w h : ℕ) : ℚ) := by
    have hcross := cross_diff_bound w h m hw hh
    have hcq : |(newWidth w h m : ℚ) * h - (w : ℚ) * (newHeight w h m : ℚ)| ≤
        ((max w h : ℕ) : ℚ) := by exact_mod_cast hcross
    calc |(newWidth w h m : ℚ) * h - (newHeight w h m : ℚ) * w|
        = |(newWidth w h m : ℚ) * h - (w : ℚ) * (newHeight w h m : ℚ)| := by
          ring_nf
      _ ≤ ((max w h : ℕ) : ℚ) := hcq
  calc |(newWidth w h m : ℚ) * h - (newHeight w h m : ℚ) * w| /
        ((newHeight w h m : ℚ) * h)
      ≤ ((max w h : ℕ) : ℚ) / ((newHeight w h m : ℚ) * h) :=
        (div_le_div_right (mul_pos hnq hhq)).mpr hnum
    _ = ((max w h : ℕ) : ℚ) / ((h : ℚ) * (newHeight w h m : ℚ)) := by
        rw [mul_comm]

/-- Witness for C8: a `4 × 3` image with target `2` gives `new_h = 1`. -/
theorem C8_aspect_ratio_witness :
    0 < newHeight 4 3 2 ∧
    |(newWidth 4 3 2 : ℚ) / (newHeight 4 3 2 : ℚ) - ((4 : ℕ) : ℚ) / ((3 : ℕ) : ℚ)| ≤
      ((max 4 3 : ℕ) : ℚ) / (((3 : ℕ) : ℚ) * (newHeight 4 3 2 : ℚ)) :=
  ⟨by rw [newHeight_eq_div]; decide,
   C8_aspect_ratio 4 3 2 (by decide) (by decide) (by decide)
     (by rw [newHeight_eq_div]; decide)⟩

/-! ### Lemmas about the processing loop -/

/-- Writing at path `q` leaves lookups at any other path `p` unchanged. -/
theorem find_writeImg_ne (fs : List Entry) (p q : String) (g : ImgFile)
    (hpq : p ≠ q) :
    (writeImg fs q g).find? (fun x => x.path == p) =
      fs.find? (fun x => x.path == p) := by
  unfold writeImg
  rw [List.find?_map]
  have hcomp : ((fun x : Entry => x.path == p) ∘
      (fun e : Entry => if e.path = q then { e with img := g } else e)) =
      (fun x : Entry => x.path == p) := by
    funext e
    by_cases hq : e.path = q <;> simp [Function.comp, hq]
  rw [hcomp]
  cases hf : fs.find? (fun x : Entry => x.path == p) with
  | none => rfl
  | some e =>
    have he : e.path = p := by simpa using List.find?_some hf
    have hne : ¬ e.path = q := by rw [he]; exact hpq
    simp [hne]

/-- A successful `stepFull` only rewrites the processed path. -/
theorem stepFull_ok_write (m : ℕ) (fs : List Entry) (p : String)
    (fs' : List Entry) (evs : List Ev)
    (h : stepFull m fs p = (Except.ok fs', evs)) :
    ∃ g, fs' = writeImg fs p g := by
  unfold stepFull at h
  cases hf : fs.find? (fun e => e.path == p) with
  | none =>
    rw [hf] at h
    exact absurd h (by simp)
  | some e =>
    rw [hf] at h
    dsimp only at h
    by_cases hif : e.isFile = false
    · rw [if_pos hif] at h
      exact absurd h (by simp)
    · rw [if_neg hif] at h
      cases hr : resize_image p e.img m with
      | mk res evs2 =>
        rw [hr] at h
        cases res with
        | error er => exact absurd h (by simp)
        | ok g =>
          refine ⟨g, ?_⟩
          have := congrArg Prod.fst h
          simpa using this.symm

/-- Paths never passed to the loop keep their original content. -/
theorem processList_not_mem_find (m : ℕ) (ps : List String) :
    ∀ (fs : List Entry) (p : String), p ∉ ps →
      (processList m fs ps).fs.find? (fun x => x.path == p) =
        fs.find? (fun x => x.path == p) := by
  induction ps with
  | nil =>
    intro fs p _
    rfl
  | cons q rest ih =>
    intro fs p hp
    have hpq : p ≠ q := fun hh => hp (hh ▸ List.mem_cons_self q rest)
    have hprest : p ∉ rest := fun hh => hp (List.mem_cons_of_mem q hh)
    cases hstep : stepFull m fs q with
    | mk res evs =>
      cases res with
      | error er =>
        simp [processList, hstep]
      | ok fs' =>
        obtain ⟨g, hg⟩ := stepFull_ok_write m fs q fs' evs hstep
        simp only [processList, hstep]
        rw [ih fs' p hprest, hg, find_writeImg_ne fs p q g hpq]

/-! ### Claims about the walk, the filter, and the loop -/

/-- Claim C2: the list comprehension keeps exactly the entries under the
root whose suffix is, case-sensitively, one of `.png`, `.jpg`, `.jpeg`,
materialized as a finite list; an entry with any other suffix is excluded
and its content is never modified by the whole run. -/
theorem C2_walker_filter (tree : List Entry) (m : ℕ) (d : Bool) (e : Entry) :
    (e ∈ imageFiles tree ↔ e ∈ tree ∧ suffix e.path ∈ exts) ∧
    (suffix e.path ∉ exts →
      (resize_images tree m d).fs.find? (fun x => x.path == e.path) =
        tree.find? (fun x => x.path == e.path)) := by
  constructor
  · simp [imageFiles, List.mem_filter]
  · intro hs
    have hnot : e.path ∉ (imageFiles tree).map (fun x => x.path) := by
      intro hmem
      rw [List.mem_map] at hmem
      obtain ⟨x, hx, hx3⟩ := hmem
      rw [imageFiles, List.mem_filter] at hx
      exact hs (hx3 ▸ (by simpa using hx.2))
    exact processList_not_mem_find m _ tree e.path hnot

/-- Witness for C2: a directory holding a `.gif` and a `.jpg`; the `.gif`
is filtered out and its stored content survives the run unchanged. -/
theorem C2_walker_filter_witness :
    suffix "root/anim.gif" ∉ exts ∧
    (resize_images
        [⟨"root/anim.gif", true, ⟨800, 600, true, true⟩⟩,
         ⟨"root/cat.jpg", true, ⟨800, 600, true, true⟩⟩] 400 false).fs.find?
        (fun x => x.path == "root/anim.gif") =
      [(⟨"root/anim.gif", true, ⟨800, 600, true, true⟩⟩ : Entry),
       ⟨"root/cat.jpg", true, ⟨800, 600, true, true⟩⟩].find?
        (fun x => x.path == "root/anim.gif") :=
  ⟨by decide,
   (C2_walker_filter
      [⟨"root/anim.gif", true, ⟨800, 600, true, true⟩⟩,
       ⟨"root/cat.jpg", true, ⟨800, 600, true, true⟩⟩] 400 false
      ⟨"root/anim.gif", true, ⟨800, 600, true, true⟩⟩).2 (by decide)⟩

/-- Claim C9: the filter checks only the suffix and never that the entry
is a regular file: any entry — `isFile` true or false — whose suffix is
in the allow-list lands in the filtered list and in the list of paths
passed to `resize_image`. -/
theorem C9_no_regular_file_check (tree : List Entry) (e : Entry)
    (he : e ∈ tree) (hs : suffix e.path ∈ exts) :
    e ∈ imageFiles tree ∧
    e.path ∈ (imageFiles tree).map (fun x => x.path) := by
  have h1 : e ∈ imageFiles tree := by
    rw [imageFiles, List.mem_filter]
    exact ⟨he, by simpa using hs⟩
  exact ⟨h1, List.mem_map.mpr ⟨e, h1, rfl⟩⟩

/-- Witness for C9: a directory (not a regular file) named `shots.jpg`
is still selected by the filter. -/
theorem C9_no_regular_file_check_witness :
    (⟨"root/shots.jpg", false, ⟨0, 0, false, false⟩⟩ : Entry) ∈
      imageFiles [⟨"root/shots.jpg", false, ⟨0, 0, false, false⟩⟩] ∧
    "root/shots.jpg" ∈
      (imageFiles [(⟨"root/shots.jpg", false, ⟨0, 0, false, false⟩⟩ : Entry)]).map
        (fun x => x.path) :=
  C9_no_regular_file_check
    [⟨"root/shots.jpg", false, ⟨0, 0, false, false⟩⟩]
    ⟨"root/shots.jpg", false, ⟨0, 0, false, false⟩⟩
    (by decide) (by decide)

/-- Claim C4: a decodable image without the exif metadata block makes
`resize_image` fail with the metadata lookup error before anything is
saved: no save event is emitted, and a loop run over that file leaves
the filesystem exactly as it was. -/
theorem C4_missing_metadata_aborts (p : String) (f : ImgFile) (m : ℕ)
    (fs : List Entry) (hdec : f.decodable = true) (hex : f.hasExif = false) :
    (resize_image p f m).1 = Except.error Err.missingMetadata ∧
    Ev.save p ∉ (resize_image p f m).2 ∧
    (fs.find? (fun x => x.path == p) = some ⟨p, true, f⟩ →
      processList m fs [p] =
        ⟨fs, some Err.missingMetadata, [p], [Ev.openFile p]⟩) := by
  refine ⟨?_, ?_, ?_⟩
  · simp [resize_image, hdec, hex]
  · simp [resize_image, hdec, hex]
  · intro hf
    simp [processList, stepFull, hf, resize_image, hdec, hex]

/-- Witness for C4: one file `root/raw.png` lacking exif data. -/
theorem C4_missing_metadata_aborts_witness :
    (resize_image "root/raw.png" ⟨800, 600, false, true⟩ 400).1 =
      Except.error Err.missingMetadata ∧
    Ev.save "root/raw.png" ∉
      (resize_image "root/raw.png" ⟨800, 600, false, true⟩ 400).2 ∧
    (([⟨"root/raw.png", true, ⟨800, 600, false, true⟩⟩] : List Entry).find?
        (fun x => x.path == "root/raw.png") =
          some ⟨"root/raw.png", true, ⟨800, 600, false, true⟩⟩ →
      processList 400 [⟨"root/raw.png", true, ⟨800, 600, false, true⟩⟩]
          ["root/raw.png"] =
        ⟨[⟨"root/raw.png", true, ⟨800, 600, false, true⟩⟩],
         some Err.missingMetadata, ["root/raw.png"],
         [Ev.openFile "root/raw.png"]⟩) :=
  C4_missing_metadata_aborts "root/raw.png" ⟨800, 600, false, true⟩ 400
    [⟨"root/raw.png", true, ⟨800, 600, false, true⟩⟩] rfl rfl

/-- Claim C10: the `disable_pbar` flag only affects the progress
display: runs differing only in the flag resize the same files, in the
same order, with identical resulting filesystems, errors, and event
traces. -/
theorem C10_quiet_display_only (tree : List Entry) (m : ℕ) (d₁ d₂ : Bool) :
    (resize_images tree m d₁).fs = (resize_images tree m d₂).fs ∧
    (resize_images tree m d₁).err = (resize_images tree m d₂).err ∧
    (resize_images tree m d₁).attempted = (resize_images tree m d₂).attempted ∧
    (resize_images tree m d₁).events = (resize_images tree m d₂).events ∧
    (resize_images tree m d₁).progressTotal =
      (resize_images tree m d₂).progressTotal ∧
    (resize_images tree m d₁).progressShown = !d₁ :=
  ⟨rfl, rfl, rfl, rfl, rfl, rfl⟩

/-! ### Lemmas about event traces -/

/-- A `resize_image` call never emits a copy event. -/
theorem copyTree_not_in_resize_image (s d p : String) (f : ImgFile) (m : ℕ) :
    Ev.copyTree s d ∉ (resize_image p f m).2 := by
  unfold resize_image
  split_ifs <;> simp

/-- A loop step never emits a copy event. -/
theorem copyTree_not_in_stepFull (s d : String) (m : ℕ) (fs : List Entry)
    (p : String) :
    Ev.copyTree s d ∉ (stepFull m fs p).2 := by
  unfold stepFull
  cases hf : fs.find? (fun e => e.path == p) with
  | none => simp
  | some e =>
    dsimp only
    by_cases hif : e.isFile = false
    · simp [hif]
    · rw [if_neg hif]
      cases hr : resize_image p e.img m with
      | mk res evs =>
        have hmem := copyTree_not_in_resize_image s d p e.img m
        rw [hr] at hmem
        cases res <;> simpa using hmem

/-- The whole processing loop never emits a copy event. -/
theorem copyTree_not_in_processList (s d : String) (m : ℕ) (ps : List String) :
    ∀ fs : List Entry, Ev.copyTree s d ∉ (processList m fs ps).events := by
  induction ps with
  | nil =>
    intro fs
    simp [processList]
  | cons q rest ih =>
    intro fs
    have hevs := copyTree_not_in_stepFull s d m fs q
    cases hstep : stepFull m fs q with
    | mk res evs =>
      rw [hstep] at hevs
      cases res with
      | error er =>
        simp only [processList, hstep]
        simpa using hevs
      | ok fs' =>
        simp only [processList, hstep]
        rw [List.mem_append]
        push_neg
        exact ⟨by simpa using hevs, ih fs'⟩

/-! ### Claims about the orchestrator -/

/-- Claim C3: without `--in-place`, `main` performs the recursive copy of
the resolved source into the sibling `{name}_original` as its very first
action — the whole resize run comes strictly after it in the trace — and
aborts before any resize if the copy fails; with `--in-place`, no copy
event occurs at all. -/
theorem C3_backup_before_resize (path : AbsPath) (tree : List Entry)
    (ok : Bool) (m : ℕ) (quiet : Bool) :
    (ok = true →
      (main path tree ok m false quiet).events =
        Ev.copyTree (render path)
            (render ⟨path.parent, path.name ++ "_original"⟩) ::
          (resize_images tree m quiet).events) ∧
    (ok = false →
      main path tree ok m false quiet = ⟨[], some Err.copyFailed, tree⟩) ∧
    (∀ s d, Ev.copyTree s d ∉ (main path tree ok m true quiet).events) := by
  refine ⟨?_, ?_, ?_⟩
  · intro h
    subst h
    rfl
  · intro h
    subst h
    rfl
  · intro s d
    show Ev.copyTree s d ∉
      (processList m tree ((imageFiles tree).map (fun e => e.path))).events
    exact copyTree_not_in_processList s d m _ tree

/-- Witness for C3: an empty tree at `/home/pics`, backup succeeding. -/
theorem C3_backup_before_resize_witness :
    (main ⟨"/home", "pics"⟩ [] true 400 false false).events =
      Ev.copyTree (render ⟨"/home", "pics"⟩)
          (render ⟨"/home", "pics" ++ "_original"⟩) ::
        (resize_images [] 400 false).events :=
  (C3_backup_before_resize ⟨"/home", "pics"⟩ [] true 400 false).1 rfl

/-- Claim C7: no error from the loop is caught anywhere: whenever the
run reports an error, there is a prefix of the file list that was fully
processed, the very next file failed with exactly that error, the final
filesystem is the one produced by the successful prefix (files resized
before the error stay resized, nothing is rolled back), and no later
file was attempted; and a backup-copy failure likewise aborts `main`
with nothing resized. -/
theorem C7_fail_fast_no_rollback (m : ℕ) (ps : List String) :
    ∀ (fs : List Entry) (er : Err),
      (processList m fs ps).err = some er →
      ∃ pre p post fs₁,
        ps = pre ++ p :: post ∧
        okRun m fs pre = some fs₁ ∧
        (stepFull m fs₁ p).1 = Except.error er ∧
        (processList m fs ps).fs = fs₁ ∧
        (processList m fs ps).attempted = pre ++ [p] := by
  induction ps with
  | nil =>
    intro fs er h
    exact absurd h (by simp [processList])
  | cons q rest ih =>
    intro fs er h
    cases hstep : stepFull m fs q with
    | mk res evs =>
      cases res with
      | error er2 =>
        have her : er2 = er := by
          have := h
          simp only [processList, hstep] at this
          simpa using this
        refine ⟨[], q, rest, fs, rfl, rfl, ?_, ?_, ?_⟩
        · rw [hstep, her]
        · simp [processList, hstep]
        · simp [processList, hstep]
      | ok fs' =>
        have hrest : (processList m fs' rest).err = some er := by
          have := h
          simp only [processList, hstep] at this
          exact this
        obtain ⟨pre, p, post, fs₁, hsplit, hok, hfail, hfs, hatt⟩ :=
          ih fs' er hrest
        refine ⟨q :: pre, p, post, fs₁, by simp [hsplit], ?_, hfail, ?_, ?_⟩
        · show (match stepFull m fs q with
            | (Except.ok fs', _) => okRun m fs' pre
            | (Except.error _, _) => none) = some fs₁
          rw [hstep]
          exact hok
        · simp only [processList, hstep]
          exact hfs
        · simp only [processList, hstep]
          rw [hatt]
          rfl

/-- Witness for C7: two files, the first fine, the second missing its
metadata — the loop resizes the first, stops at the second. -/
theorem C7_fail_fast_no_rollback_witness :
    (processList 400
        [⟨"r/a.jpg", true, ⟨800, 600, true, true⟩⟩,
         ⟨"r/b.jpg", true, ⟨800, 600, false, true⟩⟩]
        ["r/a.jpg", "r/b.jpg"]).err = some Err.missingMetadata ∧
    ∃ pre p post fs₁,
      ["r/a.jpg", "r/b.jpg"] = pre ++ p :: post ∧
      okRun 400
          [⟨"r/a.jpg", true, ⟨800, 600, true, true⟩⟩,
           ⟨"r/b.jpg", true, ⟨800, 600, false, true⟩⟩] pre = some fs₁ ∧
      (stepFull 400 fs₁ p).1 = Except.error Err.missingMetadata ∧
      (processList 400
          [⟨"r/a.jpg", true, ⟨800, 600, true, true⟩⟩,
           ⟨"r/b.jpg", true, ⟨800, 600, false, true⟩⟩]
          ["r/a.jpg", "r/b.jpg"]).fs = fs₁ ∧
      (processList 400
          [⟨"r/a.jpg", true, ⟨800, 600, true, true⟩⟩,
           ⟨"r/b.jpg", true, ⟨800, 600, false, true⟩⟩]
          ["r/a.jpg", "r/b.jpg"]).attempted = pre ++ [p] := by
  have herr : (processList 400
      [⟨"r/a.jpg", true, ⟨800, 600, true, true⟩⟩,
       ⟨"r/b.jpg", true, ⟨800, 600, false, true⟩⟩]
      ["r/a.jpg", "r/b.jpg"]).err = some Err.missingMetadata := by
    simp [processList, stepFull, resize_image, writeImg]
  exact ⟨herr,
    C7_fail_fast_no_rollback 400 ["r/a.jpg", "r/b.jpg"]
      [⟨"r/a.jpg", true, ⟨800, 600, true, true⟩⟩,
       ⟨"r/b.jpg", true, ⟨800, 600, false, true⟩⟩]
      Err.missingMetadata herr⟩

end Winds
